import Mathlib

/-!
Verification of the copy-on-write view core of `anndata/_core/views.py`.

Part 1 embeds the index-composition functions (`_resolve_idx`,
`_resolve_idx_slice_slice`, and the per-type dispatch arms) together with the
Python / numpy indexing semantics they rely on (slice normalization via
`slice.indices`, `range` slicing, `np.where`, `np.arange`, and 1-D array
indexing).  Part 2 embeds the mutation-interception state machine
(`_SetItemMixin.__setitem__`, `_SetItemMixin._update`, the view variants,
`as_view`, `__deepcopy__`, `__array_finalize__`).  Machine integers are
modelled as `Int`/`Nat`; operations that can raise return `Option`.
-/

/-- A Python `slice` object: optional start/stop/step. -/
structure PySlice where
  start : Option Int
  stop : Option Int
  step : Option Int
deriving DecidableEq, Repr

/-- `slice.step` with Python's implicit default of 1 (a `None` step means 1). -/
def PySlice.stepVal (s : PySlice) : Int := s.step.getD 1

/-- CPython `slice.indices(length)`: normalized `(start, stop, step)`.
Meaningful only when the step is nonzero (Python raises otherwise). -/
def PySlice.indices (s : PySlice) (l : Nat) : Int × Int × Int :=
  let step := s.stepVal
  let L : Int := (l : Int)
  let lower : Int := if step < 0 then -1 else 0
  let upper : Int := if step < 0 then L - 1 else L
  let start : Int :=
    match s.start with
    | none => if step < 0 then upper else lower
    | some v => if v < 0 then max (v + L) lower else min v upper
  let stop : Int :=
    match s.stop with
    | none => if step < 0 then lower else upper
    | some v => if v < 0 then max (v + L) lower else min v upper
  (start, stop, step)

/-- Number of elements of Python `range(a, b, c)` (`c ≠ 0`):
`⌈(b-a)/c⌉` clamped at zero, written with Euclidean division. -/
def pyRangeLen (a b c : Int) : Nat :=
  if 0 < c then (-((a - b) / c)).toNat
  else (-((b - a) / (-c))).toNat

/-- The elements of Python `range(a, b, c)` in order. -/
def pyRangeElems (a b c : Int) : List Int :=
  (List.range (pyRangeLen a b c)).map (fun (k : Nat) => a + (k : Int) * c)

/-- Python `range(a,b,c)[sl]` as a raw `(start, stop, step)` triple, following
CPython's `range.__getitem__` for slices. -/
def pyRangeSlice (a b c : Int) (sl : PySlice) : Int × Int × Int :=
  let n := pyRangeLen a b c
  let t := sl.indices n
  (a + t.1 * c, a + t.2.1 * c, c * t.2.2)

/-- The index shapes handled by `_resolve_idx`: slices, boolean-mask arrays,
integer arrays, and integer scalars. -/
inductive PyIndex where
  | slice (s : PySlice)
  | boolMask (m : List Bool)
  | intArr (xs : List Int)
  | scalar (i : Int)
deriving DecidableEq, Repr

/-- Positions (ascending) where a boolean mask is true — `np.where(m)[0]`. -/
def maskTruePos (m : List Bool) : List Nat :=
  (List.range m.length).filter (fun i => m.getD i false)

/-- Normalize a (possibly negative) Python index against an axis length. -/
def normPos (l : Nat) (i : Int) : Nat :=
  (if i < 0 then i + (l : Int) else i).toNat

/-- Validity of an index over an axis of length `l` (what numpy accepts
without raising): nonzero slice step, mask of matching length, integer
entries within `[-l, l)`. -/
def validIdx (ix : PyIndex) (l : Nat) : Prop :=
  match ix with
  | .slice s => s.stepVal ≠ 0
  | .boolMask m => m.length = l
  | .intArr xs => ∀ x ∈ xs, -(l : Int) ≤ x ∧ x < (l : Int)
  | .scalar i => -(l : Int) ≤ i ∧ i < (l : Int)

instance (ix : PyIndex) (l : Nat) : Decidable (validIdx ix l) := by
  unfold validIdx
  cases ix <;> infer_instance

/-- The axis positions an index selects on an axis of length `l`
(`none` when the index is invalid there).  A scalar index is the one-element
selection that keeps the axis, matching how the surrounding container
subsets axes. -/
def idxPositions (ix : PyIndex) (l : Nat) : Option (List Nat) :=
  match ix with
  | .slice s =>
      if s.stepVal = 0 then none
      else
        let t := s.indices l
        some ((pyRangeElems t.1 t.2.1 t.2.2).map Int.toNat)
  | .boolMask m => if m.length = l then some (maskTruePos m) else none
  | .intArr xs =>
      if ∀ x ∈ xs, -(l : Int) ≤ x ∧ x < (l : Int) then
        some (xs.map (normPos l))
      else none
  | .scalar i =>
      if -(l : Int) ≤ i ∧ i < (l : Int) then some [normPos l i] else none

/-- Applying an index to a base sequence: the selected elements, `none` when
the index is invalid for the sequence's length. -/
def applyIdx {α : Type} [Inhabited α] (base : List α) (ix : PyIndex) :
    Option (List α) :=
  (idxPositions ix base.length).map (fun ps => ps.map (fun p => base.getD p default))

/-- `np.where(m)[0]` as integers. -/
def npWhere (m : List Bool) : List Int := (maskTruePos m).map Int.ofNat

/-- `np.arange(a, b, c)` (integer arguments). -/
def npArange (a b c : Int) : List Int := pyRangeElems a b c

/-- numpy 1-D indexing of an integer array by an index, at the value level:
models `arr[new]` where `arr = np.array xs`.  A scalar index yields a numpy
integer scalar, everything else an integer array; `none` models the raised
`IndexError`/`ValueError`. -/
def npGetitem (xs : List Int) (new : PyIndex) : Option PyIndex :=
  match new with
  | .scalar j =>
      if -(xs.length : Int) ≤ j ∧ j < (xs.length : Int) then
        some (.scalar (xs.getD (normPos xs.length j) 0))
      else none
  | _ =>
      (idxPositions new xs.length).map
        (fun ps => .intArr (ps.map (fun p => xs.getD p 0)))

/-- Source `_resolve_idx_slice_slice(old, new, l)`:
`r = range(*old.indices(l))[new]`, then convert `r` back to a slice, with an
empty result collapsing to `stop == start` and a negative computed stop
becoming an open-ended `None`. -/
def _resolve_idx_slice_slice (old new : PySlice) (l : Nat) : PySlice :=
  let t := old.indices l
  let r := pyRangeSlice t.1 t.2.1 t.2.2 new
  let len := pyRangeLen r.1 r.2.1 r.2.2
  let stop : Option Int :=
    if len = 0 then some r.1
    else if r.2.1 < 0 then none
    else some r.2.1
  ⟨some r.1, stop, some r.2.2⟩

/-- Source `_resolve_idx(old, new, l)`: the single-dispatch index composition.
A boolean ndarray is first converted by `np.where` to integer positions; an
integer scalar is wrapped as `np.array([old])`; a slice composed with a slice
stays a slice via `_resolve_idx_slice_slice`, and a slice composed with
anything else is expanded by `np.arange(*old.indices(l))`.  `none` models a
raised error (zero slice step, out-of-range entries, mask length mismatch). -/
def _resolve_idx (old new : PyIndex) (l : Nat) : Option PyIndex :=
  match old with
  | .boolMask m => npGetitem (npWhere m) new
  | .intArr xs => npGetitem xs new
  | .scalar i => npGetitem [i] new
  | .slice os =>
      match new with
      | .slice ns =>
          if os.stepVal = 0 ∨ ns.stepVal = 0 then none
          else some (.slice (_resolve_idx_slice_slice os ns l))
      | _ =>
          if os.stepVal = 0 then none
          else
            let t := os.indices l
            npGetitem (npArange t.1 t.2.1 t.2.2) new

/-! ### Basic list access helpers -/

theorem getD_of_lt {α : Type} (l : List α) (n : Nat) (d : α) (h : n < l.length) :
    l.getD n d = l[n] := by
  simp [List.getD_eq_getElem?_getD, List.getElem?_eq_getElem h]

theorem getD_map_of_lt {α β : Type} (f : α → β) (l : List α) (n : Nat)
    (d : α) (d' : β) (h : n < l.length) :
    (l.map f).getD n d' = f (l.getD n d) := by
  rw [getD_of_lt _ _ _ (by simpa using h), getD_of_lt _ _ _ h, List.getElem_map]

theorem getD_mem_of_lt {α : Type} (l : List α) (n : Nat) (d : α) (h : n < l.length) :
    l.getD n d ∈ l := by
  rw [getD_of_lt _ _ _ h]
  exact List.getElem_mem h

/-! ### Arithmetic facts about `pyRangeLen` / `pyRangeElems` -/

theorem pyRangeLen_length (a b c : Int) :
    (pyRangeElems a b c).length = pyRangeLen a b c := by
  unfold pyRangeElems
  rw [List.length_map, List.length_range]

theorem pyRangeElems_getD {a b c : Int} {k : Nat} (h : k < pyRangeLen a b c) :
    (pyRangeElems a b c).getD k 0 = a + (k : Int) * c := by
  have hlen : k < (pyRangeElems a b c).length := by
    rw [pyRangeLen_length]; exact h
  rw [getD_of_lt _ _ _ hlen]
  unfold pyRangeElems
  rw [List.getElem_map, List.getElem_range]

theorem mem_pyRangeElems {a b c e : Int} (h : e ∈ pyRangeElems a b c) :
    ∃ k : Nat, k < pyRangeLen a b c ∧ e = a + (k : Int) * c := by
  unfold pyRangeElems at h
  rw [List.mem_map] at h
  obtain ⟨k, hk, he⟩ := h
  rw [List.mem_range] at hk
  exact ⟨k, hk, he.symm⟩

/-- Every position strictly below the range length lies strictly before the
stop bound (positive step). -/
theorem rangeElem_lt_stop {a b c : Int} (hc : 0 < c) {k : Nat}
    (hk : k < pyRangeLen a b c) : a + (k : Int) * c < b := by
  unfold pyRangeLen at hk
  rw [if_pos hc] at hk
  have hk' : ((a - b) / c) ≤ -(k : Int) - 1 := by omega
  have h1 : c * ((a - b) / c) + (a - b) % c = a - b := Int.ediv_add_emod _ _
  have h2 : 0 ≤ (a - b) % c := Int.emod_nonneg _ (by omega)
  have h4 : c * ((a - b) / c) ≤ c * (-(k : Int) - 1) :=
    mul_le_mul_of_nonneg_left hk' (le_of_lt hc)
  have h3 : (a - b) % c < c := Int.emod_lt_of_pos _ hc
  nlinarith

/-- Every position strictly below the range length lies strictly after the
stop bound (negative step). -/
theorem rangeElem_gt_stop {a b c : Int} (hc : c < 0) {k : Nat}
    (hk : k < pyRangeLen a b c) : b < a + (k : Int) * c := by
  unfold pyRangeLen at hk
  rw [if_neg (by omega)] at hk
  have hk' : ((b - a) / (-c)) ≤ -(k : Int) - 1 := by omega
  have h1 : (-c) * ((b - a) / (-c)) + (b - a) % (-c) = b - a := Int.ediv_add_emod _ _
  have h2 : 0 ≤ (b - a) % (-c) := Int.emod_nonneg _ (by omega)
  have h4 : (-c) * ((b - a) / (-c)) ≤ (-c) * (-(k : Int) - 1) :=
    mul_le_mul_of_nonneg_left hk' (by omega)
  have h3 : (b - a) % (-c) < -c := Int.emod_lt_of_pos _ (by omega)
  nlinarith

/-- The stop bound is at most one step past the last position (positive step). -/
theorem stop_le_start_add_len_mul {a b c : Int} (hc : 0 < c) :
    b ≤ a + (pyRangeLen a b c : Int) * c := by
  unfold pyRangeLen
  rw [if_pos hc]
  have h1 : c * ((a - b) / c) + (a - b) % c = a - b := Int.ediv_add_emod _ _
  have h2 : 0 ≤ (a - b) % c := Int.emod_nonneg _ (by omega)
  have hn : -((a - b) / c) ≤ ((-((a - b) / c)).toNat : Int) := Int.self_le_toNat _
  have h4 : c * (-((-((a - b) / c)).toNat : Int)) ≤ c * ((a - b) / c) :=
    mul_le_mul_of_nonneg_left (by omega) (le_of_lt hc)
  nlinarith

/-- The stop bound is at least one step past the last position (negative step). -/
theorem stop_ge_start_add_len_mul {a b c : Int} (hc : c < 0) :
    a + (pyRangeLen a b c : Int) * c ≤ b := by
  unfold pyRangeLen
  rw [if_neg (by omega)]
  have h1 : (-c) * ((b - a) / (-c)) + (b - a) % (-c) = b - a := Int.ediv_add_emod _ _
  have h2 : 0 ≤ (b - a) % (-c) := Int.emod_nonneg _ (by omega)
  have hn : -((b - a) / (-c)) ≤ ((-((b - a) / (-c))).toNat : Int) := Int.self_le_toNat _
  have h4 : (-c) * (-((-((b - a) / (-c))).toNat : Int)) ≤ (-c) * ((b - a) / (-c)) :=
    mul_le_mul_of_nonneg_left (by omega) (by omega)
  nlinarith

/-- Exact characterization of the range length for a positive step: any stop
bound in the half-open step-gap `(a + (k-1)c, a + kc]` gives length `k`. -/
theorem pyRangeLen_eq_of_pos {a b c : Int} (hc : 0 < c) {k : Nat}
    (hk1 : a + ((k : Int) - 1) * c < b) (hk2 : b ≤ a + (k : Int) * c) :
    pyRangeLen a b c = k := by
  have hr1 : 0 ≤ a - b + (k : Int) * c := by linarith
  have hr2 : a - b + (k : Int) * c < c := by linarith
  have hdiv : (a - b) / c = -(k : Int) := by
    have hrw : a - b = (a - b + (k : Int) * c) + (-(k : Int)) * c := by ring
    rw [hrw, Int.add_mul_ediv_right _ _ (by omega : c ≠ 0),
      Int.ediv_eq_zero_of_lt hr1 hr2]
    ring
  unfold pyRangeLen
  rw [if_pos hc, hdiv]
  omega

/-- Exact characterization of the range length for a negative step. -/
theorem pyRangeLen_eq_of_neg {a b c : Int} (hc : c < 0) {k : Nat}
    (hk1 : b < a + ((k : Int) - 1) * c) (hk2 : a + (k : Int) * c ≤ b) :
    pyRangeLen a b c = k := by
  have hr1 : 0 ≤ b - a - (k : Int) * c := by linarith
  have hr2 : b - a - (k : Int) * c < -c := by linarith
  have hdiv : (b - a) / (-c) = -(k : Int) := by
    have hrw : b - a = (b - a - (k : Int) * c) + (-(k : Int)) * (-c) := by ring
    rw [hrw, Int.add_mul_ediv_right _ _ (by omega : (-c) ≠ 0),
      Int.ediv_eq_zero_of_lt hr1 hr2]
    ring
  unfold pyRangeLen
  rw [if_neg (by omega), hdiv]
  omega

theorem pyRangeLen_self (a c : Int) : pyRangeLen a a c = 0 := by
  unfold pyRangeLen
  split <;> simp

/-! ### Bounds established by `slice.indices` normalization -/

theorem indices_step (s : PySlice) (l : Nat) : (s.indices l).2.2 = s.stepVal := rfl

theorem indices_bounds_pos (s : PySlice) (l : Nat) (h : 0 < s.stepVal) :
    0 ≤ (s.indices l).1 ∧ (s.indices l).1 ≤ (l : Int) ∧
      0 ≤ (s.indices l).2.1 ∧ (s.indices l).2.1 ≤ (l : Int) := by
  unfold PySlice.indices
  rcases s.start with _ | v <;> rcases s.stop with _ | w <;>
    simp only [min_def, max_def] <;> split_ifs <;> simp_all <;> omega

theorem indices_bounds_neg (s : PySlice) (l : Nat) (h : s.stepVal < 0) :
    -1 ≤ (s.indices l).1 ∧ (s.indices l).1 ≤ (l : Int) - 1 ∧
      -1 ≤ (s.indices l).2.1 ∧ (s.indices l).2.1 ≤ (l : Int) - 1 := by
  unfold PySlice.indices
  rcases s.start with _ | v <;> rcases s.stop with _ | w <;>
    simp only [min_def, max_def] <;> split_ifs <;> simp_all <;> omega

/-- The axis positions produced by a normalized slice are valid: they lie in
`[0, l)`. -/
theorem slice_elems_bounds (s : PySlice) (l : Nat) (hst : s.stepVal ≠ 0) :
    ∀ e ∈ pyRangeElems (s.indices l).1 (s.indices l).2.1 (s.indices l).2.2,
      0 ≤ e ∧ e < (l : Int) := by
  intro e he
  obtain ⟨k, hk, rfl⟩ := mem_pyRangeElems he
  rw [indices_step] at hk ⊢
  rcases lt_or_gt_of_ne hst with hneg | hpos
  · obtain ⟨h1, h2, h3, h4⟩ := indices_bounds_neg s l hneg
    have hgt := rangeElem_gt_stop hneg hk
    have hkc : (k : Int) * s.stepVal ≤ 0 :=
      mul_nonpos_of_nonneg_of_nonpos (by positivity) (le_of_lt hneg)
    constructor <;> nlinarith
  · obtain ⟨h1, h2, h3, h4⟩ := indices_bounds_pos s l hpos
    have hlt := rangeElem_lt_stop hpos hk
    have hkc : 0 ≤ (k : Int) * s.stepVal :=
      mul_nonneg (by positivity) (le_of_lt hpos)
    constructor <;> nlinarith

/-- All positions an index denotes are in range. -/
theorem idxPositions_lt {ix : PyIndex} {l : Nat} {ps : List Nat}
    (h : idxPositions ix l = some ps) : ∀ p ∈ ps, p < l := by
  intro p hp
  cases ix with
  | slice s =>
    by_cases hc : s.stepVal = 0
    · simp [idxPositions, hc] at h
    · simp only [idxPositions, if_neg hc] at h
      rw [← Option.some.inj h] at hp
      rw [List.mem_map] at hp
      obtain ⟨e, he, rfl⟩ := hp
      have hb := slice_elems_bounds s l hc e he
      omega
  | boolMask m =>
    by_cases hc : m.length = l
    · simp only [idxPositions, if_pos hc] at h
      rw [← Option.some.inj h] at hp
      unfold maskTruePos at hp
      rw [List.mem_filter, List.mem_range] at hp
      omega
    · simp [idxPositions, hc] at h
  | intArr xs =>
    by_cases hc : ∀ x ∈ xs, -(l : Int) ≤ x ∧ x < (l : Int)
    · simp only [idxPositions, if_pos hc] at h
      rw [← Option.some.inj h] at hp
      rw [List.mem_map] at hp
      obtain ⟨x, hx, rfl⟩ := hp
      have hb := hc x hx
      unfold normPos
      split <;> omega
    · simp [idxPositions, hc] at h
  | scalar i =>
    by_cases hc : -(l : Int) ≤ i ∧ i < (l : Int)
    · simp only [idxPositions, if_pos hc] at h
      rw [← Option.some.inj h] at hp
      rw [List.mem_singleton] at hp
      subst hp
      unfold normPos
      split <;> omega
    · simp [idxPositions, hc] at h

/-- An index is valid over `l` exactly when it denotes positions there. -/
theorem validIdx_iff_isSome (ix : PyIndex) (l : Nat) :
    validIdx ix l ↔ (idxPositions ix l).isSome := by
  cases ix <;> simp only [validIdx, idxPositions] <;> split <;> simp_all

/-! ### Range slicing: scaling the underlying arithmetic progression -/

/-- The length of a scaled/translated range is unchanged: this is the length
part of `range(a,b,c)[sl] = [range(a,b,c)[q] for q in range(*sl.indices(len))]`. -/
theorem pyRangeLen_scale (a c s e st : Int) (hc : c ≠ 0) (hst : st ≠ 0) :
    pyRangeLen (a + s * c) (a + e * c) (c * st) = pyRangeLen s e st := by
  have hse : a + s * c - (a + e * c) = c * (s - e) := by ring
  have hes : a + e * c - (a + s * c) = c * (e - s) := by ring
  rcases lt_or_gt_of_ne hc with hcneg | hcpos
  · rcases lt_or_gt_of_ne hst with hstneg | hstpos
    · -- c < 0, st < 0 : c * st > 0
      have hpos : 0 < c * st := mul_pos_of_neg_of_neg hcneg hstneg
      unfold pyRangeLen
      rw [if_pos hpos, if_neg (by omega : ¬ (0:Int) < st), hse]
      have h1 : c * (s - e) = (-c) * (e - s) := by ring
      have h2 : c * st = (-c) * (-st) := by ring
      rw [h1, h2, Int.mul_ediv_mul_of_pos _ _ (by omega : (0:Int) < -c)]
    · -- c < 0, st > 0 : c * st < 0
      have hneg : c * st < 0 := mul_neg_of_neg_of_pos hcneg hstpos
      unfold pyRangeLen
      rw [if_neg (by omega : ¬ (0:Int) < c * st), if_pos hstpos, hes]
      have h1 : c * (e - s) = (-c) * (s - e) := by ring
      have h2 : -(c * st) = (-c) * st := by ring
      rw [h1, h2, Int.mul_ediv_mul_of_pos _ _ (by omega : (0:Int) < -c)]
  · rcases lt_or_gt_of_ne hst with hstneg | hstpos
    · -- c > 0, st < 0 : c * st < 0
      have hneg : c * st < 0 := mul_neg_of_pos_of_neg hcpos hstneg
      unfold pyRangeLen
      rw [if_neg (by omega : ¬ (0:Int) < c * st), if_neg (by omega : ¬ (0:Int) < st), hes]
      have h2 : -(c * st) = c * (-st) := by ring
      rw [h2, Int.mul_ediv_mul_of_pos _ _ hcpos]
    · -- c > 0, st > 0 : c * st > 0
      have hpos : 0 < c * st := mul_pos hcpos hstpos
      unfold pyRangeLen
      rw [if_pos hpos, if_pos hstpos, hse]
      rw [Int.mul_ediv_mul_of_pos _ _ hcpos]

/-- Element part of range slicing: the raw composed range enumerates exactly
the old progression evaluated at the new range's positions. -/
theorem pyRangeElems_scale (a c s e st : Int) (hc : c ≠ 0) (hst : st ≠ 0) :
    pyRangeElems (a + s * c) (a + e * c) (c * st)
      = (pyRangeElems s e st).map (fun q => a + q * c) := by
  unfold pyRangeElems
  rw [List.map_map, pyRangeLen_scale a c s e st hc hst]
  apply List.map_congr_left
  intro k _
  simp only [Function.comp_apply]
  ring

/-! ### Correctness of composition through integer-array indexing -/

/-- `normPos` is the identity on coerced naturals. -/
theorem normPos_ofNat (l p : Nat) : normPos l (Int.ofNat p) = p := by
  have hop : Int.ofNat p = (p : Int) := rfl
  unfold normPos
  rw [hop]
  split <;> omega

/-- The integer array produced by indexing `xs` at in-range positions is valid
over `l` and denotes the corresponding composed positions. -/
theorem intArr_result (xs : List Int) (l : Nat) (Q : List Nat)
    (hxs : ∀ x ∈ xs, -(l : Int) ≤ x ∧ x < (l : Int))
    (hQlt : ∀ q ∈ Q, q < xs.length) :
    idxPositions (.intArr (Q.map (fun q => xs.getD q 0))) l
      = some (Q.map (fun q => (xs.map (normPos l)).getD q 0)) := by
  have hvalid : ∀ y ∈ Q.map (fun q => xs.getD q 0), -(l : Int) ≤ y ∧ y < (l : Int) := by
    intro y hy
    rw [List.mem_map] at hy
    obtain ⟨q, hq, rfl⟩ := hy
    exact hxs _ (getD_mem_of_lt xs q 0 (hQlt q hq))
  simp only [idxPositions, if_pos hvalid, List.map_map]
  congr 1
  apply List.map_congr_left
  intro q hq
  simp only [Function.comp_apply]
  have h0 : normPos l 0 = 0 := by simp [normPos]
  rw [← h0, getD_map_of_lt (normPos l) xs q 0 _ (hQlt q hq)]

/-- Composition correctness for the arms of `_resolve_idx` that go through
numpy integer-array indexing: if `xs` lists in-range raw positions whose
normalizations are the positions `Pn` of the old index, then `xs[new]` is a
valid index over `l` denoting exactly the composition of `new` with `Pn`. -/
theorem npGetitem_correct (xs : List Int) (l : Nat) (new : PyIndex) (Q : List Nat)
    (hxs : ∀ x ∈ xs, -(l : Int) ≤ x ∧ x < (l : Int))
    (hQ : idxPositions new xs.length = some Q) :
    ∃ cix, npGetitem xs new = some cix ∧
      idxPositions cix l = some (Q.map (fun q => (xs.map (normPos l)).getD q 0)) := by
  have hQlt : ∀ q ∈ Q, q < xs.length := idxPositions_lt hQ
  cases new with
  | scalar j =>
    by_cases hc : -(xs.length : Int) ≤ j ∧ j < (xs.length : Int)
    · simp only [idxPositions, if_pos hc] at hQ
      obtain rfl : [normPos xs.length j] = Q := Option.some.inj hQ
      refine ⟨.scalar (xs.getD (normPos xs.length j) 0), ?_, ?_⟩
      · simp [npGetitem, if_pos hc]
      · have hlt : normPos xs.length j < xs.length := by
          unfold normPos
          split <;> omega
        have hb := hxs _ (getD_mem_of_lt xs _ 0 hlt)
        simp only [idxPositions, if_pos hb, List.map_cons, List.map_nil]
        have h0 : normPos l 0 = 0 := by simp [normPos]
        rw [← h0, getD_map_of_lt (normPos l) xs _ 0 _ hlt]
    · simp [idxPositions, hc] at hQ
  | slice s =>
    refine ⟨.intArr (Q.map (fun q => xs.getD q 0)), ?_, ?_⟩
    · simp [npGetitem, hQ]
    · exact intArr_result xs l Q hxs hQlt
  | boolMask m =>
    refine ⟨.intArr (Q.map (fun q => xs.getD q 0)), ?_, ?_⟩
    · simp [npGetitem, hQ]
    · exact intArr_result xs l Q hxs hQlt
  | intArr ys =>
    refine ⟨.intArr (Q.map (fun q => xs.getD q 0)), ?_, ?_⟩
    · simp [npGetitem, hQ]
    · exact intArr_result xs l Q hxs hQlt

/-! ### Converting a position range back to slice form -/

theorem pyRangeElems_eq_of_len_eq {a b b' c : Int}
    (h : pyRangeLen a b c = pyRangeLen a b' c) :
    pyRangeElems a b c = pyRangeElems a b' c := by
  unfold pyRangeElems
  rw [h]

theorem pyRangeElems_of_len_zero {a b c : Int} (h : pyRangeLen a b c = 0) :
    pyRangeElems a b c = [] := by
  unfold pyRangeElems
  rw [h]
  rfl

theorem mem_pyRangeElems_of_lt {a b c : Int} {k : Nat} (hk : k < pyRangeLen a b c) :
    a + (k : Int) * c ∈ pyRangeElems a b c := by
  unfold pyRangeElems
  rw [List.mem_map]
  exact ⟨k, List.mem_range.mpr hk, rfl⟩

/-- The slice built by `_resolve_idx_slice_slice` from the raw composed range
`(A, B, C)` re-normalizes (over the same axis) to a range with exactly the
original elements, provided those elements are valid positions. -/
theorem sliceForm_elems (sl : PySlice) (l : Nat) (A B C : Int) (hC : C ≠ 0)
    (hstart : sl.start = some A) (hstep : sl.step = some C)
    (hstop : sl.stop =
      if pyRangeLen A B C = 0 then some A else if B < 0 then none else some B)
    (hbounds : ∀ x ∈ pyRangeElems A B C, 0 ≤ x ∧ x < (l : Int)) :
    pyRangeElems (sl.indices l).1 (sl.indices l).2.1 (sl.indices l).2.2
      = pyRangeElems A B C := by
  have hsv : sl.stepVal = C := by rw [PySlice.stepVal, hstep]; rfl
  by_cases hm : pyRangeLen A B C = 0
  · -- empty range: start and stop both normalize to the same value
    rw [if_pos hm] at hstop
    have hidx : (sl.indices l).1 = (sl.indices l).2.1 := by
      unfold PySlice.indices
      rw [hsv, hstart, hstop]
    rw [indices_step, hsv]
    rw [pyRangeElems_of_len_zero hm, pyRangeElems_of_len_zero]
    rw [← hidx, pyRangeLen_self]
  · -- nonempty range
    rw [if_neg hm] at hstop
    have hmpos : 0 < pyRangeLen A B C := Nat.pos_of_ne_zero hm
    set m := pyRangeLen A B C with hmdef
    have hAmem : A ∈ pyRangeElems A B C := by
      have := mem_pyRangeElems_of_lt (a := A) (b := B) (c := C) (k := 0) hmpos
      simpa using this
    have hAbd := hbounds A hAmem
    have hcast : ((m - 1 : Nat) : Int) = (m : Int) - 1 := by omega
    have hlast : A + ((m : Int) - 1) * C ∈ pyRangeElems A B C := by
      have := mem_pyRangeElems_of_lt (a := A) (b := B) (c := C) (k := m - 1)
        (by omega)
      rwa [hcast] at this
    have hlastbd := hbounds _ hlast
    rw [indices_step, hsv]
    rcases lt_or_gt_of_ne hC with hCneg | hCpos
    · -- negative step
      have hBlt : B < A + ((m : Int) - 1) * C := by
        have := rangeElem_gt_stop hCneg (a := A) (b := B) (k := m - 1) (by omega)
        rwa [hcast] at this
      have hBge : A + (m : Int) * C ≤ B := stop_ge_start_add_len_mul hCneg
      have hstartval : (sl.indices l).1 = A := by
        unfold PySlice.indices
        rw [hsv, hstart]
        dsimp only
        rw [if_pos hCneg, if_neg (by omega : ¬ A < 0), min_def, if_pos (by omega)]
      by_cases hBneg : B < 0
      · -- open-ended stop, normalizes to -1
        rw [if_pos hBneg] at hstop
        have hstopval : (sl.indices l).2.1 = -1 := by
          unfold PySlice.indices
          rw [hsv, hstop]
          dsimp only
          simp only [if_pos hCneg]
        rw [hstartval, hstopval]
        apply pyRangeElems_eq_of_len_eq
        rw [← hmdef]
        exact pyRangeLen_eq_of_neg hCneg (by omega) (by omega)
      · -- literal stop B, not clamped
        rw [if_neg hBneg] at hstop
        have hstopval : (sl.indices l).2.1 = B := by
          unfold PySlice.indices
          rw [hsv, hstop]
          dsimp only
          rw [if_pos hCneg, if_neg (by omega : ¬ B < 0), min_def,
            if_pos (by omega)]
        rw [hstartval, hstopval]
    · -- positive step
      have hBgt : A + ((m : Int) - 1) * C < B := by
        have := rangeElem_lt_stop hCpos (a := A) (b := B) (k := m - 1) (by omega)
        rwa [hcast] at this
      have hBle : B ≤ A + (m : Int) * C := stop_le_start_add_len_mul hCpos
      have hBpos : 0 < B := by
        have hstepnn : 0 ≤ ((m : Int) - 1) * C :=
          mul_nonneg (by omega) (le_of_lt hCpos)
        omega
      rw [if_neg (by omega : ¬ B < 0)] at hstop
      have hstartval : (sl.indices l).1 = A := by
        unfold PySlice.indices
        rw [hsv, hstart]
        dsimp only
        rw [if_neg (by omega : ¬ C < 0), if_neg (by omega : ¬ A < 0), min_def,
          if_pos (by omega)]
      have hstopval : (sl.indices l).2.1 = min B (l : Int) := by
        unfold PySlice.indices
        rw [hsv, hstop]
        dsimp only
        simp only [if_neg (by omega : ¬ C < 0), if_neg (by omega : ¬ B < 0)]
      rw [hstartval, hstopval]
      rcases le_or_lt B (l : Int) with hBl | hBl
      · rw [min_def, if_pos hBl]
      · rw [min_def, if_neg (by omega)]
        apply pyRangeElems_eq_of_len_eq
        rw [← hmdef]
        exact pyRangeLen_eq_of_pos hCpos (by omega) (by omega)

/-- `stepVal` of a slice literal with an explicit step. -/
theorem stepVal_mk_some (x y : Option Int) (z : Int) :
    PySlice.stepVal ⟨x, y, some z⟩ = z := rfl

/-- Slice–slice composition correctness at the position level: the slice
returned by `_resolve_idx_slice_slice` denotes exactly the positions of the
new slice applied to the old slice's positions. -/
theorem resolve_slice_slice_positions (os ns : PySlice) (l : Nat) (Pn Q : List Nat)
    (hP : idxPositions (.slice os) l = some Pn)
    (hQ : idxPositions (.slice ns) Pn.length = some Q) :
    idxPositions (.slice (_resolve_idx_slice_slice os ns l)) l
      = some (Q.map (fun q => Pn.getD q 0)) := by
  by_cases ho : os.stepVal = 0
  · simp [idxPositions, ho] at hP
  by_cases hn : ns.stepVal = 0
  · simp [idxPositions, hn] at hQ
  rcases hos : os.indices l with ⟨a, b, c⟩
  have hcs : c = os.stepVal := by
    have h2 := indices_step os l
    rw [hos] at h2
    exact h2
  have hc : c ≠ 0 := by rw [hcs]; exact ho
  simp only [idxPositions, if_neg ho, hos] at hP
  obtain rfl : (pyRangeElems a b c).map Int.toNat = Pn := Option.some.inj hP
  rw [List.length_map, pyRangeLen_length] at hQ
  rcases hns : ns.indices (pyRangeLen a b c) with ⟨u, v, w⟩
  have hws : w = ns.stepVal := by
    have h2 := indices_step ns (pyRangeLen a b c)
    rw [hns] at h2
    exact h2
  have hw : w ≠ 0 := by rw [hws]; exact hn
  simp only [idxPositions, if_neg hn, hns] at hQ
  obtain rfl : (pyRangeElems u v w).map Int.toNat = Q := Option.some.inj hQ
  have hC : c * w ≠ 0 := mul_ne_zero hc hw
  have hPbounds := slice_elems_bounds os l ho
  rw [hos] at hPbounds
  dsimp only at hPbounds
  have hQbounds := slice_elems_bounds ns (pyRangeLen a b c) hn
  rw [hns] at hQbounds
  dsimp only at hQbounds
  have hscale : pyRangeElems (a + u * c) (a + v * c) (c * w)
      = (pyRangeElems u v w).map (fun q => a + q * c) :=
    pyRangeElems_scale a c u v w hc hw
  have hbounds : ∀ x ∈ pyRangeElems (a + u * c) (a + v * c) (c * w),
      0 ≤ x ∧ x < (l : Int) := by
    rw [hscale]
    intro x hx
    rw [List.mem_map] at hx
    obtain ⟨q, hq, rfl⟩ := hx
    obtain ⟨hq0, hqn⟩ := hQbounds q hq
    have hqcast : q = (q.toNat : Int) := by omega
    have hqlt : q.toNat < pyRangeLen a b c := by omega
    have hmem : a + q * c ∈ pyRangeElems a b c := by
      rw [hqcast]
      exact mem_pyRangeElems_of_lt hqlt
    exact hPbounds _ hmem
  unfold _resolve_idx_slice_slice
  rw [hos]
  dsimp only
  unfold pyRangeSlice
  simp only [hns]
  simp only [idxPositions]
  rw [if_neg (by rw [stepVal_mk_some]; exact hC)]
  apply congrArg
  rw [sliceForm_elems _ l (a + u * c) (a + v * c) (c * w) hC rfl rfl rfl hbounds]
  rw [hscale, List.map_map, List.map_map]
  apply List.map_congr_left
  intro q hq
  simp only [Function.comp_apply]
  obtain ⟨hq0, hqn⟩ := hQbounds q hq
  have hqlt : q.toNat < (pyRangeElems a b c).length := by
    rw [pyRangeLen_length]
    omega
  rw [getD_map_of_lt Int.toNat _ _ 0 _ hqlt]
  rw [pyRangeElems_getD (by rw [pyRangeLen_length] at hqlt; exact hqlt)]
  congr 1
  have hqc : ((q.toNat : Nat) : Int) = q := by omega
  rw [hqc]

theorem maskTruePos_lt {m : List Bool} {p : Nat} (hp : p ∈ maskTruePos m) :
    p < m.length := by
  unfold maskTruePos at hp
  rw [List.mem_filter, List.mem_range] at hp
  exact hp.1

/-- Position-level correctness of `_resolve_idx` for every old-index type:
the composed index exists and denotes the composition of the position maps. -/
theorem resolve_positions (old new : PyIndex) (l : Nat) (Pn Q : List Nat)
    (hP : idxPositions old l = some Pn)
    (hQ : idxPositions new Pn.length = some Q) :
    ∃ cix, _resolve_idx old new l = some cix ∧
      idxPositions cix l = some (Q.map (fun q => Pn.getD q 0)) := by
  cases old with
  | boolMask m =>
    by_cases hc : m.length = l
    · simp only [idxPositions, if_pos hc] at hP
      obtain rfl : maskTruePos m = Pn := Option.some.inj hP
      have hmap : (npWhere m).map (normPos l) = maskTruePos m := by
        unfold npWhere
        rw [List.map_map]
        have : ∀ p ∈ maskTruePos m, (normPos l ∘ Int.ofNat) p = id p := by
          intro p _
          simp only [Function.comp_apply, id]
          exact normPos_ofNat l p
        rw [List.map_congr_left this, List.map_id]
      have hxs : ∀ x ∈ npWhere m, -(l : Int) ≤ x ∧ x < (l : Int) := by
        intro x hx
        unfold npWhere at hx
        rw [List.mem_map] at hx
        obtain ⟨p, hp, rfl⟩ := hx
        have := maskTruePos_lt hp
        have hop : Int.ofNat p = (p : Int) := rfl
        rw [hop]
        omega
      have hlen : (npWhere m).length = (maskTruePos m).length := by
        unfold npWhere
        rw [List.length_map]
      rw [← hlen] at hQ
      obtain ⟨cix, h1, h2⟩ := npGetitem_correct (npWhere m) l new Q hxs hQ
      rw [hmap] at h2
      exact ⟨cix, h1, h2⟩
    · simp [idxPositions, hc] at hP
  | intArr xs =>
    by_cases hc : ∀ x ∈ xs, -(l : Int) ≤ x ∧ x < (l : Int)
    · simp only [idxPositions, if_pos hc] at hP
      obtain rfl : xs.map (normPos l) = Pn := Option.some.inj hP
      rw [List.length_map] at hQ
      exact npGetitem_correct xs l new Q hc hQ
    · simp [idxPositions, hc] at hP
  | scalar i =>
    by_cases hc : -(l : Int) ≤ i ∧ i < (l : Int)
    · simp only [idxPositions, if_pos hc] at hP
      obtain rfl : [normPos l i] = Pn := Option.some.inj hP
      have hxs : ∀ x ∈ [i], -(l : Int) ≤ x ∧ x < (l : Int) := by
        intro x hx
        rw [List.mem_singleton] at hx
        subst hx
        exact hc
      have hmap : ([i].map (normPos l)) = [normPos l i] := rfl
      rw [← hmap] at hQ ⊢
      rw [List.length_map] at hQ
      exact npGetitem_correct [i] l new Q hxs hQ
    · simp [idxPositions, hc] at hP
  | slice os =>
    have ho : os.stepVal ≠ 0 := by
      intro h0
      simp [idxPositions, h0] at hP
    cases new with
    | slice ns =>
      have hn : ns.stepVal ≠ 0 := by
        intro h0
        simp [idxPositions, h0] at hQ
      refine ⟨.slice (_resolve_idx_slice_slice os ns l), ?_, ?_⟩
      · simp only [_resolve_idx]
        rw [if_neg (by tauto)]
      · exact resolve_slice_slice_positions os ns l Pn Q hP hQ
    | boolMask mm =>
      simp only [idxPositions, if_neg ho] at hP
      obtain rfl := Option.some.inj hP
      have hxs : ∀ x ∈ npArange (os.indices l).1 (os.indices l).2.1 (os.indices l).2.2,
          -(l : Int) ≤ x ∧ x < (l : Int) := by
        intro x hx
        have := slice_elems_bounds os l ho x hx
        omega
      have hmap : (npArange (os.indices l).1 (os.indices l).2.1 (os.indices l).2.2).map
          (normPos l) = (pyRangeElems (os.indices l).1 (os.indices l).2.1
            (os.indices l).2.2).map Int.toNat := by
        apply List.map_congr_left
        intro e he
        have := slice_elems_bounds os l ho e he
        unfold normPos
        rw [if_neg (by omega)]
      have hlen : (npArange (os.indices l).1 (os.indices l).2.1
          (os.indices l).2.2).length
          = ((pyRangeElems (os.indices l).1 (os.indices l).2.1
              (os.indices l).2.2).map Int.toNat).length := by
        unfold npArange
        rw [List.length_map]
      rw [← hlen] at hQ
      obtain ⟨cix, h1, h2⟩ := npGetitem_correct _ l (.boolMask mm) Q hxs hQ
      rw [hmap] at h2
      refine ⟨cix, ?_, h2⟩
      simp only [_resolve_idx]
      rw [if_neg ho]
      exact h1
    | intArr ys =>
      simp only [idxPositions, if_neg ho] at hP
      obtain rfl := Option.some.inj hP
      have hxs : ∀ x ∈ npArange (os.indices l).1 (os.indices l).2.1 (os.indices l).2.2,
          -(l : Int) ≤ x ∧ x < (l : Int) := by
        intro x hx
        have := slice_elems_bounds os l ho x hx
        omega
      have hmap : (npArange (os.indices l).1 (os.indices l).2.1 (os.indices l).2.2).map
          (normPos l) = (pyRangeElems (os.indices l).1 (os.indices l).2.1
            (os.indices l).2.2).map Int.toNat := by
        apply List.map_congr_left
        intro e he
        have := slice_elems_bounds os l ho e he
        unfold normPos
        rw [if_neg (by omega)]
      have hlen : (npArange (os.indices l).1 (os.indices l).2.1
          (os.indices l).2.2).length
          = ((pyRangeElems (os.indices l).1 (os.indices l).2.1
              (os.indices l).2.2).map Int.toNat).length := by
        unfold npArange
        rw [List.length_map]
      rw [← hlen] at hQ
      obtain ⟨cix, h1, h2⟩ := npGetitem_correct _ l (.intArr ys) Q hxs hQ
      rw [hmap] at h2
      refine ⟨cix, ?_, h2⟩
      simp only [_resolve_idx]
      rw [if_neg ho]
      exact h1
    | scalar j =>
      simp only [idxPositions, if_neg ho] at hP
      obtain rfl := Option.some.inj hP
      have hxs : ∀ x ∈ npArange (os.indices l).1 (os.indices l).2.1 (os.indices l).2.2,
          -(l : Int) ≤ x ∧ x < (l : Int) := by
        intro x hx
        have := slice_elems_bounds os l ho x hx
        omega
      have hmap : (npArange (os.indices l).1 (os.indices l).2.1 (os.indices l).2.2).map
          (normPos l) = (pyRangeElems (os.indices l).1 (os.indices l).2.1
            (os.indices l).2.2).map Int.toNat := by
        apply List.map_congr_left
        intro e he
        have := slice_elems_bounds os l ho e he
        unfold normPos
        rw [if_neg (by omega)]
      have hlen : (npArange (os.indices l).1 (os.indices l).2.1
          (os.indices l).2.2).length
          = ((pyRangeElems (os.indices l).1 (os.indices l).2.1
              (os.indices l).2.2).map Int.toNat).length := by
        unfold npArange
        rw [List.length_map]
      rw [← hlen] at hQ
      obtain ⟨cix, h1, h2⟩ := npGetitem_correct _ l (.scalar j) Q hxs hQ
      rw [hmap] at h2
      refine ⟨cix, ?_, h2⟩
      simp only [_resolve_idx]
      rw [if_neg ho]
      exact h1

/-- C2: for every axis length `l`, every old index (slice, boolean mask,
integer array, or integer scalar) valid over `range(l)` — its positions being
`Pn` — and every new index valid over the result of applying the old index,
indexing a base sequence of length `l` first by `old` then by `new` yields the
same elements as indexing it once by the index composed by `_resolve_idx`; in
particular a boolean old index is first converted to the sorted integer
positions where it is true, so mask `[T,F,T,T,F]` composed with new index `1`
selects position `2`. -/
theorem resolve_idx_correct :
    (∀ {α : Type} [Inhabited α] (base : List α) (l : Nat) (old new : PyIndex)
        (Pn : List Nat),
        base.length = l →
        idxPositions old l = some Pn →
        validIdx new Pn.length →
        (applyIdx base old).bind (fun ys => applyIdx ys new)
          = (_resolve_idx old new l).bind (fun cix => applyIdx base cix)) ∧
      _resolve_idx (.boolMask [true, false, true, true, false]) (.scalar 1) 5
        = some (.scalar 2) := by
  constructor
  · intro α inst base l old new Pn hl hP hvalid
    subst hl
    rw [validIdx_iff_isSome] at hvalid
    obtain ⟨Q, hQ⟩ := Option.isSome_iff_exists.mp hvalid
    obtain ⟨cix, hcix, hcpos⟩ := resolve_positions old new base.length Pn Q hP hQ
    unfold applyIdx
    rw [hP, hcix]
    simp only [Option.map_some', Option.some_bind]
    rw [List.length_map, hQ, hcpos]
    simp only [Option.map_some']
    apply congrArg
    rw [List.map_map]
    apply List.map_congr_left
    intro q hq
    have hqlt : q < Pn.length := idxPositions_lt hQ q hq
    simp only [Function.comp_apply]
    rw [getD_map_of_lt _ _ _ 0 _ hqlt]
  · rfl

theorem resolve_idx_correct_witness :
    (applyIdx ([10, 20, 30, 40, 50] : List Int)
          (.boolMask [true, false, true, true, false])).bind
        (fun ys => applyIdx ys (.scalar 1))
      = (_resolve_idx (.boolMask [true, false, true, true, false]) (.scalar 1) 5).bind
          (fun cix => applyIdx ([10, 20, 30, 40, 50] : List Int) cix) :=
  resolve_idx_correct.1 [10, 20, 30, 40, 50] 5
    (.boolMask [true, false, true, true, false]) (.scalar 1) [0, 2, 3]
    (by rfl) (by decide) (by decide)

/-- C5: when both the old and the new index are slices, composition over axis
length `l` always returns a slice (never an array); the old slice is resolved
to a range, the new slice applied to it, and the result converted back to a
slice whose positions are exactly the composed positions; an empty resulting
range gives `stop = start`, and a negative computed stop gives the open-ended
stop `none`, while a nonnegative computed stop is kept literally. -/
theorem slice_slice_stays_slice (os ns : PySlice) (l : Nat) (Pn Q : List Nat)
    (hP : idxPositions (.slice os) l = some Pn)
    (hQ : idxPositions (.slice ns) Pn.length = some Q) :
    _resolve_idx (.slice os) (.slice ns) l
        = some (.slice (_resolve_idx_slice_slice os ns l)) ∧
      idxPositions (.slice (_resolve_idx_slice_slice os ns l)) l
        = some (Q.map (fun q => Pn.getD q 0)) ∧
      ∀ A B C : Int,
        pyRangeSlice (os.indices l).1 (os.indices l).2.1 (os.indices l).2.2 ns
            = (A, B, C) →
        (_resolve_idx_slice_slice os ns l).start = some A ∧
        (_resolve_idx_slice_slice os ns l).step = some C ∧
        (pyRangeLen A B C = 0 →
          (_resolve_idx_slice_slice os ns l).stop
            = (_resolve_idx_slice_slice os ns l).start) ∧
        (pyRangeLen A B C ≠ 0 → B < 0 →
          (_resolve_idx_slice_slice os ns l).stop = none) ∧
        (pyRangeLen A B C ≠ 0 → 0 ≤ B →
          (_resolve_idx_slice_slice os ns l).stop = some B) := by
  have ho : os.stepVal ≠ 0 := by
    intro h0
    simp [idxPositions, h0] at hP
  have hn : ns.stepVal ≠ 0 := by
    intro h0
    simp [idxPositions, h0] at hQ
  refine ⟨?_, resolve_slice_slice_positions os ns l Pn Q hP hQ, ?_⟩
  · simp only [_resolve_idx]
    rw [if_neg (by tauto)]
  · intro A B C hr
    simp only [_resolve_idx_slice_slice, hr]
    refine ⟨trivial, trivial, ?_, ?_, ?_⟩
    · intro hlen0
      rw [if_pos hlen0]
    · intro hlen hBneg
      rw [if_neg hlen, if_pos hBneg]
    · intro hlen hBnn
      rw [if_neg hlen, if_neg (by omega)]

theorem slice_slice_stays_slice_witness :
    (_resolve_idx_slice_slice ⟨some 2, some 8, some 2⟩ ⟨some 5, some 5, none⟩ 8).stop
      = (_resolve_idx_slice_slice ⟨some 2, some 8, some 2⟩
          ⟨some 5, some 5, none⟩ 8).start :=
  ((slice_slice_stays_slice ⟨some 2, some 8, some 2⟩ ⟨some 5, some 5, none⟩ 8
      [2, 4, 6] [] (by decide) (by decide)).2.2 8 8 2 (by decide)).2.2.1 (by decide)

/-!
### Part 2 — mutation interception and scoped materialization

The root (`AnnData`) is modelled by the state it owns: a map from attribute
names to containers, plus its view flag.  Containers are trees: dense arrays
of integers, labelled tables, and string-keyed mappings.  In-place mutation of
a sub-container aliased inside a copy is modelled by rebuilding the copy along
the access path (`mutateSub`).  Operations that can raise return `Option`;
the contextmanager protocol of `_update` is made explicit: the commit step
runs only when the body returns normally, exactly as a generator-based
`with`-block without `try`/`finally` behaves.
-/

/-- A container reachable from a root attribute: a dense integer array, a
labelled table (stand-in for a data frame), or a string-keyed mapping. -/
inductive Node where
  | arr (xs : List Int)
  | table (rows : List (String × Int))
  | dict (entries : List (String × Node))

/-- Replace the value at a key of an association list (no-op if absent). -/
def assocSet {β : Type} : List (String × β) → String → β → List (String × β)
  | [], _, _ => []
  | (k, v) :: rest, key, nv =>
      if k == key then (k, nv) :: rest else (k, v) :: assocSet rest key nv

/-- `d[k]` on a mapping node; `none` models the raised `KeyError`. -/
def Node.child : Node → String → Option Node
  | .dict es, k => List.lookup k es
  | _, _ => none

/-- Replace the child at key `k` (meaningful when it exists). -/
def Node.setChild : Node → String → Node → Node
  | .dict es, k, c => .dict (assocSet es k c)
  | n, _, _ => n

/-- `container[idx] = value` on a dense array; `none` models `IndexError`. -/
def Node.setIdx : Node → Nat → Int → Option Node
  | .arr xs, i, v => if i < xs.length then some (.arr (xs.set i v)) else none
  | _, _, _ => none

/-- `pd.DataFrame.drop(label, inplace=...)` on the row labels of a table:
removes the rows with the given label, `none` models the raised `KeyError`
when the label is absent. -/
def dfDrop (rows : List (String × Int)) (lbl : String) :
    Option (List (String × Int)) :=
  if rows.any (fun r => r.1 == lbl) then
    some (rows.filter (fun r => !(r.1 == lbl)))
  else none

/-- `drop` lifted to container nodes. -/
def Node.dropLbl : Node → String → Option Node
  | .table rows, lbl => (dfDrop rows lbl).map Node.table
  | _, _ => none

/-- The `(attrname, keys)` fields of the source's `ElementRef` descriptor;
the parent root is passed alongside as explicit state. -/
structure ElementRef where
  attrname : String
  keys : List String
deriving DecidableEq, Repr

/-- The state a root object owns: its attribute containers and whether it is
itself still a view of something upstream. -/
structure AData where
  attrs : List (String × Node)
  is_view : Bool

/-- Modelled from the spec: `Root.copy()` — an independent full copy of the
root (no storage shared), not derived from anything.  In this pure embedding
an independent copy carries the same attribute values. -/
def AData.copy (a : AData) : AData := ⟨a.attrs, false⟩

/-- Modelled from the spec: `Root._init_as_actual(new)` — the root adopts
`new`'s state as its own, in place, and thereafter no longer considers itself
derived from anything. -/
def AData.initAsActual (_a new : AData) : AData := ⟨new.attrs, false⟩

/-- Observable steps of an intercepted mutation. -/
inductive Event where
  | warned (attrname : String)
  | copied
  | mutated
  | committed
  | nativeSet
deriving DecidableEq, Repr

/-- Navigate `keys` from a container and run `body` on the final
sub-container, rebuilding the tree along the path (this is the pure rendering
of mutating, in place, a sub-container aliased inside the tree).
Outer `none`: path resolution raised; `some none`: `body` raised;
`some (some n)`: mutated tree. -/
def mutateSub : Node → List String → (Node → Option Node) → Option (Option Node)
  | n, [], body => some (body n)
  | n, k :: ks, body =>
      match n.child k with
      | none => none
      | some c =>
          (mutateSub c ks body).map (fun r => r.map (fun c2 => n.setChild k c2))

/-- Result of running `_update` (and of the mutating operations built on it):
the root object's state afterwards, whether the block completed without an
exception, the observable events in order, and the root state after each
event. -/
structure UpdateResult where
  root : AData
  ok : Bool
  events : List Event
  roots : List AData

/-- Source `_SetItemMixin._update`omitted doc: `new = adata_view.copy()`;
`attr = getattr(new, attr_name)`; `container = reduce(lambda d, k: d[k],
keys, attr)`; `yield container`; `adata_view._init_as_actual(new)`.
The body is the caller's single mutating operation on the yielded
sub-container.  Because `_update` is a `@contextmanager` generator with no
`try`/`finally`, an exception in the body propagates at the `yield` and the
final `_init_as_actual` line never runs: commit happens only on the normal
path, and on every exception path the root keeps its previous state. -/
def updateWith (root : AData) (rf : ElementRef) (body : Node → Option Node) :
    UpdateResult :=
  let new := root.copy
  match List.lookup rf.attrname new.attrs with
  | none => ⟨root, false, [.copied], [root]⟩
  | some attr =>
      match mutateSub attr rf.keys body with
      | none => ⟨root, false, [.copied], [root]⟩
      | some none => ⟨root, false, [.copied], [root]⟩
      | some (some attr2) =>
          let newMut : AData := ⟨assocSet new.attrs rf.attrname attr2, new.is_view⟩
          let final := root.initAsActual newMut
          ⟨final, true, [.copied, .mutated, .committed], [root, root, final]⟩

/-- Result of `__setitem__` on a view object: the view's own data afterwards,
the root state, success, events and per-event root states. -/
structure SetitemResult where
  self : Node
  root : AData
  ok : Bool
  events : List Event
  roots : List AData

/-- Source `_SetItemMixin.__setitem__(idx, value)`: with no descriptor the
native assignment runs directly; with a descriptor an
`ImplicitModificationWarning` naming the attribute is emitted, then the
assignment is routed onto the sub-container yielded by `_update`. -/
def setitemView (selfData : Node) (va : Option ElementRef) (root : AData)
    (idx : Nat) (v : Int) : SetitemResult :=
  match va with
  | none =>
      match selfData.setIdx idx v with
      | none => ⟨selfData, root, false, [], [root]⟩
      | some d => ⟨d, root, true, [.nativeSet], [root]⟩
  | some rf =>
      let u := updateWith root rf (fun c => c.setIdx idx v)
      ⟨selfData, u.root, u.ok, .warned rf.attrname :: u.events, root :: u.roots⟩

/-- A view object: its own (read-observable) data and its descriptor. -/
structure ViewObj where
  data : Node
  va : Option ElementRef

/-- A root together with the views derived from it. -/
structure Sys where
  root : AData
  views : List ViewObj

/-- Item-assignment on the `i`-th view of the system: only that view receives
the call; the view object itself is rebuilt from the call's result. -/
def sysSetitem (s : Sys) (i : Nat) (idx : Nat) (v : Int) :
    Sys × Option SetitemResult :=
  match s.views[i]? with
  | none => (s, none)
  | some vo =>
      let r := setitemView vo.data vo.va s.root idx v
      (⟨r.root, s.views.set i ⟨r.self, vo.va⟩⟩, some r)

/-- Result of `DataFrameView.drop`. -/
structure DropResult where
  returned : Option (List (String × Int))
  self : List (String × Int)
  root : AData
  ok : Bool
  events : List Event

/-- Source `DataFrameView.drop(*args, inplace=False)`: with `inplace=False`
the call operates on a plain copy (`self.copy().drop(*args)`) and returns the
new table, never intercepting; with `inplace=True` it runs
`with self._update() as df: df.drop(*args, inplace=True)`, routing through
scoped materialization like an item assignment (a `None` descriptor makes the
`self._view_args` unpacking raise). -/
def dataFrameViewDrop (selfRows : List (String × Int)) (va : Option ElementRef)
    (root : AData) (lbl : String) (inplace : Bool) : DropResult :=
  if inplace = false then
    ⟨dfDrop selfRows lbl, selfRows, root, (dfDrop selfRows lbl).isSome, []⟩
  else
    match va with
    | none => ⟨none, selfRows, root, false, []⟩
    | some rf =>
        let u := updateWith root rf (fun n => n.dropLbl lbl)
        ⟨none, selfRows, u.root, u.ok, u.events⟩

/-!
### View variants, the construction registry, deepcopy, array finalization
-/

/-- Runtime container objects as the single-dispatch factory sees them: one
constructor per registered concrete shape (plain and view variants of dense
arrays, CSR/CSC sparse matrices, data frames and dicts), the pass-through
immutable `ZappyArray`, and `unregistered` for every other runtime type,
carrying that type's printed name. -/
inductive PyObj where
  | ndarray (data : List Int)
  | arrayViewObj (data : List Int) (va : Option ElementRef)
  | csrMatrix (data : List Int)
  | sparseCSRViewObj (data : List Int) (va : Option ElementRef)
  | cscMatrix (data : List Int)
  | sparseCSCViewObj (data : List Int) (va : Option ElementRef)
  | dataFrame (rows : List (String × Int))
  | dataFrameViewObj (rows : List (String × Int)) (va : Option ElementRef)
  | pyDict (entries : List (String × Int))
  | dictViewObj (entries : List (String × Int)) (va : Option ElementRef)
  | zappyArray (data : List Int)
  | unregistered (typename : String)
deriving DecidableEq, Repr

/-- Whether an object is one of the view wrapper classes. -/
def PyObj.isViewType : PyObj → Bool
  | .arrayViewObj _ _ | .sparseCSRViewObj _ _ | .sparseCSCViewObj _ _
  | .dataFrameViewObj _ _ | .dictViewObj _ _ => true
  | _ => false

/-- Source `ArrayView.copy`: `np.array(self)` — a conventional plain ndarray
with the same data. -/
def ArrayView.copy (data : List Int) (_va : Option ElementRef) : PyObj :=
  .ndarray data

/-- Source `SparseCSRView.copy`: `sparse.csr_matrix(self).copy()` — a plain
CSR matrix. -/
def SparseCSRView.copy (data : List Int) (_va : Option ElementRef) : PyObj :=
  .csrMatrix data

/-- Source `SparseCSCView.copy`: `sparse.csc_matrix(self).copy()` — a plain
CSC matrix. -/
def SparseCSCView.copy (data : List Int) (_va : Option ElementRef) : PyObj :=
  .cscMatrix data

/-- Modelled from the spec: `DataFrameView` does not override `copy`, and the
inherited pandas `copy` builds through the default `DataFrame` constructor —
a plain table, never another view. -/
def DataFrameView.copy (rows : List (String × Int)) (_va : Option ElementRef) :
    PyObj :=
  .dataFrame rows

/-- Modelled from the spec: `DictView` inherits `dict.copy`, which returns a
plain `dict` — never another view. -/
def DictView.copy (entries : List (String × Int)) (_va : Option ElementRef) :
    PyObj :=
  .pyDict entries

/-- The printed runtime type of an object, as interpolated into the factory's
error message. -/
def PyObj.typename : PyObj → String
  | .ndarray _ => "<class 'numpy.ndarray'>"
  | .arrayViewObj _ _ => "<class 'anndata._core.views.ArrayView'>"
  | .csrMatrix _ => "<class 'scipy.sparse.csr_matrix'>"
  | .sparseCSRViewObj _ _ => "<class 'anndata._core.views.SparseCSRView'>"
  | .cscMatrix _ => "<class 'scipy.sparse.csc_matrix'>"
  | .sparseCSCViewObj _ _ => "<class 'anndata._core.views.SparseCSCView'>"
  | .dataFrame _ => "<class 'pandas.DataFrame'>"
  | .dataFrameViewObj _ _ => "<class 'anndata._core.views.DataFrameView'>"
  | .pyDict _ => "<class 'dict'>"
  | .dictViewObj _ _ => "<class 'anndata._core.views.DictView'>"
  | .zappyArray _ => "<class 'zappy.base.ZappyArray'>"
  | .unregistered t => t

/-- Source `as_view(obj, view_args)`: the `functools.singledispatch` factory.
Dispatch is by runtime concrete type with MRO fallback, so each view subclass
dispatches to its base class's registration and is re-wrapped; a `ZappyArray`
is returned unchanged; any unregistered type raises `NotImplementedError`
naming the type. -/
def as_view (obj : PyObj) (va : ElementRef) : Except String PyObj :=
  match obj with
  | .ndarray d => .ok (.arrayViewObj d (some va))
  | .arrayViewObj d _ => .ok (.arrayViewObj d (some va))
  | .csrMatrix d => .ok (.sparseCSRViewObj d (some va))
  | .sparseCSRViewObj d _ => .ok (.sparseCSRViewObj d (some va))
  | .cscMatrix d => .ok (.sparseCSCViewObj d (some va))
  | .sparseCSCViewObj d _ => .ok (.sparseCSCViewObj d (some va))
  | .dataFrame r => .ok (.dataFrameViewObj r (some va))
  | .dataFrameViewObj r _ => .ok (.dataFrameViewObj r (some va))
  | .pyDict e => .ok (.dictViewObj e (some va))
  | .dictViewObj e _ => .ok (.dictViewObj e (some va))
  | .zappyArray d => .ok (.zappyArray d)
  | .unregistered t =>
      .error ("No view type has been registered for " ++ t)

/-- Source `_ViewMixin.__deepcopy__(memo)`: unpacks `self._view_args` (a
`None` descriptor makes the unpacking raise, modelled as `none`) and returns
`deepcopy(getattr(parent._adata_ref, attrname))` — the original non-view
sub-container stored at the descriptor's attribute name on the parent's
backing reference; the view's own data and the descriptor's `keys` are never
consulted.  A deep copy of plain data is the value itself in this pure
embedding. -/
def viewMixinDeepcopy (_selfData : Node) (va : Option ElementRef)
    (parentRefAttrs : List (String × Node)) : Option Node :=
  match va with
  | none => none
  | some rf => List.lookup rf.attrname parentRefAttrs

/-- The source object seen by `__array_finalize__`: Python `None`, an ndarray
without a `_view_args` attribute, or an `ArrayView`-like object carrying one
(`getattr(obj, "_view_args", None)` reads it). -/
inductive FinalizeSrc where
  | noneObj
  | plainArray
  | withVA (va : Option ElementRef)
deriving DecidableEq, Repr

/-- Source `ArrayView.__array_finalize__(obj)`: if `obj` is not `None`, set
`self._view_args = getattr(obj, "_view_args", None)`; otherwise leave the
already-set value alone. -/
def array_finalize_va (cur : Option ElementRef) (obj : FinalizeSrc) :
    Option ElementRef :=
  match obj with
  | .noneObj => cur
  | .plainArray => none
  | .withVA va => va

/-- An `ArrayView` instance: the dense data and its `_view_args`. -/
structure ArrView where
  data : List Int
  va : Option ElementRef
deriving DecidableEq, Repr

/-- Source `ArrayView.__new__(input_array, view_args)`: the descriptor is set
once, at construction. -/
def ArrayView.new (input_array : List Int) (view_args : Option ElementRef) :
    ArrView :=
  ⟨input_array, view_args⟩

/-- A read operation (slicing, reshaping, a ufunc) producing a fresh ndarray
from a view: numpy allocates the result and runs `__array_finalize__` on it
with the source as `obj`.  Returns the (unchanged) source and the finalized
result. -/
def arrayReadOp (src : ArrView) (f : List Int → List Int) : ArrView × ArrView :=
  (src, ⟨f src.data, array_finalize_va none (.withVA src.va)⟩)

/-- A chain of read operations, each finalized from the previous result. -/
def downstreamOps (v : ArrView) (ops : List (List Int → List Int)) : ArrView :=
  ops.foldl (fun acc f => (arrayReadOp acc f).2) v

/-- `copy.deepcopy` on an `ArrayView` instance.  `ArrayView` subclasses
`_SetItemMixin` and `np.ndarray` but not `_ViewMixin`, so
`_ViewMixin.__deepcopy__` is not in its MRO: the call resolves to numpy's
`ndarray.__deepcopy__`, which allocates a new array of the same subclass,
runs `__array_finalize__` on it with the source as `obj` (copying
`_view_args` across), and deep-copies the buffer (the same list value in
this pure embedding). -/
def ArrayView.deepcopy (v : ArrView) : ArrView :=
  ⟨v.data, array_finalize_va none (.withVA v.va)⟩

/-! ### Behaviour of scoped materialization -/

/-- Exhaustive characterization of `_update` runs: either an exception
propagated (structural error or the body raising) and the root is untouched
with only the copy step performed, or the body completed, the mutation was
applied inside the copy, and the commit re-initialized the root from it. -/
theorem updateWith_char (root : AData) (rf : ElementRef) (body : Node → Option Node) :
    ((updateWith root rf body).ok = false ∧ (updateWith root rf body).root = root ∧
      (updateWith root rf body).events = [.copied] ∧
      (updateWith root rf body).roots = [root]) ∨
    ((updateWith root rf body).ok = true ∧
      (updateWith root rf body).events = [.copied, .mutated, .committed] ∧
      (updateWith root rf body).roots
        = [root, root, (updateWith root rf body).root] ∧
      (updateWith root rf body).root.is_view = false ∧
      (∃ attr attr2, List.lookup rf.attrname root.attrs = some attr ∧
        mutateSub attr rf.keys body = some (some attr2) ∧
        (updateWith root rf body).root
          = AData.mk (assocSet root.attrs rf.attrname attr2) false)) := by
  simp only [updateWith]
  cases h1 : List.lookup rf.attrname (AData.copy root).attrs with
  | none => exact Or.inl ⟨rfl, rfl, rfl, rfl⟩
  | some attr =>
    dsimp only
    cases h2 : mutateSub attr rf.keys body with
    | none => exact Or.inl ⟨rfl, rfl, rfl, rfl⟩
    | some o =>
      cases o with
      | none => exact Or.inl ⟨rfl, rfl, rfl, rfl⟩
      | some attr2 =>
        exact Or.inr ⟨rfl, rfl, rfl, rfl, attr, attr2, h1, h2, rfl⟩

/-- C3 (amended): Scoped Materialization commits the copy as the root's new
backing state when the caller's mutating operation completes normally: the
root is then re-initialized from the mutated copy and is no longer a view.
If the operation (or the path resolution) raises, the commit step is skipped
— no committed event occurs and the root keeps its previous state. -/
theorem update_commit_paths (root : AData) (rf : ElementRef)
    (body : Node → Option Node) :
    ((updateWith root rf body).ok = true →
      (updateWith root rf body).root.is_view = false ∧
      Event.committed ∈ (updateWith root rf body).events ∧
      ∃ attr attr2, List.lookup rf.attrname root.attrs = some attr ∧
        mutateSub attr rf.keys body = some (some attr2) ∧
        (updateWith root rf body).root
          = AData.mk (assocSet root.attrs rf.attrname attr2) false) ∧
    ((updateWith root rf body).ok = false →
      (updateWith root rf body).root = root ∧
      Event.committed ∉ (updateWith root rf body).events) := by
  rcases updateWith_char root rf body with ⟨hok, hroot, hev, _⟩ | ⟨hok, hev, _, hview, hex⟩
  · constructor
    · intro h
      rw [hok] at h
      exact absurd h (by simp)
    · intro _
      refine ⟨hroot, ?_⟩
      rw [hev]
      simp
  · constructor
    · intro _
      refine ⟨hview, ?_, hex⟩
      rw [hev]
      simp
    · intro h
      rw [hok] at h
      exact absurd h (by simp)

theorem update_commit_paths_witness :
    (updateWith ⟨[("layers", Node.dict [("a", Node.arr [1, 2, 3])])], true⟩
        ⟨"layers", ["a"]⟩ (fun c => c.setIdx 0 7)).root.is_view = false ∧
      Event.committed ∈ (updateWith ⟨[("layers", Node.dict [("a", Node.arr [1, 2, 3])])], true⟩
        ⟨"layers", ["a"]⟩ (fun c => c.setIdx 0 7)).events ∧
      ∃ attr attr2,
        List.lookup "layers" [("layers", Node.dict [("a", Node.arr [1, 2, 3])])]
            = some attr ∧
        mutateSub attr ["a"] (fun c => c.setIdx 0 7) = some (some attr2) ∧
        (updateWith ⟨[("layers", Node.dict [("a", Node.arr [1, 2, 3])])], true⟩
            ⟨"layers", ["a"]⟩ (fun c => c.setIdx 0 7)).root
          = AData.mk (assocSet [("layers", Node.dict [("a", Node.arr [1, 2, 3])])]
              "layers" attr2) false :=
  (update_commit_paths ⟨[("layers", Node.dict [("a", Node.arr [1, 2, 3])])], true⟩
      ⟨"layers", ["a"]⟩ (fun c => c.setIdx 0 7)).1 (by rfl)

/-- C3 counterexample to the claim as stated: with a caller mutation that
raises (here an out-of-range assignment, after the path has resolved and the
sub-container has been yielded — `mutateSub … = some none`), the root is NOT
re-initialized from the copy: no commit happens, the root state is unchanged
and it still considers itself a view. -/
theorem update_commit_counterexample :
    mutateSub (Node.dict [("a", Node.arr [1, 2, 3])]) ["a"]
        (fun c => c.setIdx 99 7) = some none ∧
    (updateWith ⟨[("layers", Node.dict [("a", Node.arr [1, 2, 3])])], true⟩
        ⟨"layers", ["a"]⟩ (fun c => c.setIdx 99 7)).ok = false ∧
    (updateWith ⟨[("layers", Node.dict [("a", Node.arr [1, 2, 3])])], true⟩
        ⟨"layers", ["a"]⟩ (fun c => c.setIdx 99 7)).root
      = ⟨[("layers", Node.dict [("a", Node.arr [1, 2, 3])])], true⟩ ∧
    (updateWith ⟨[("layers", Node.dict [("a", Node.arr [1, 2, 3])])], true⟩
        ⟨"layers", ["a"]⟩ (fun c => c.setIdx 99 7)).root.is_view = true ∧
    Event.committed ∉ (updateWith ⟨[("layers", Node.dict [("a", Node.arr [1, 2, 3])])], true⟩
        ⟨"layers", ["a"]⟩ (fun c => c.setIdx 99 7)).events := by
  refine ⟨rfl, rfl, rfl, rfl, ?_⟩
  intro h
  simp only [updateWith] at h
  revert h
  decide

/-- The events of an `_update` run never include a warning (the warning is
emitted by `__setitem__`, before entering `_update`). -/
theorem updateWith_no_warn (root : AData) (rf : ElementRef)
    (body : Node → Option Node) (a : String) :
    (updateWith root rf body).events.count (.warned a) = 0 := by
  rcases updateWith_char root rf body with ⟨_, _, hev, _⟩ | ⟨_, hev, _, _, _⟩ <;>
    rw [hev] <;> rw [List.count_eq_zero] <;> simp

/-- C4: on an item-assignment with key `idx` and `value`: with no Reference
Descriptor the native container assignment runs directly — no warning, no
materialization, root untouched; with a descriptor exactly one
implicit-modification warning (naming the attribute) is emitted first, before
any materialization step, the warning does not block the operation, and the
assignment is routed onto the sub-container yielded by scoped
materialization (`_update` with the assignment as body). -/
theorem setitem_interception (selfData : Node) (root : AData) (idx : Nat) (v : Int) :
    (∀ d, Node.setIdx selfData idx v = some d →
        setitemView selfData none root idx v
          = ⟨d, root, true, [.nativeSet], [root]⟩) ∧
    (Node.setIdx selfData idx v = none →
        setitemView selfData none root idx v
          = ⟨selfData, root, false, [], [root]⟩) ∧
    ∀ rf : ElementRef,
      (setitemView selfData (some rf) root idx v).events.count
          (.warned rf.attrname) = 1 ∧
      (setitemView selfData (some rf) root idx v).events.head?
          = some (.warned rf.attrname) ∧
      (setitemView selfData (some rf) root idx v).root
          = (updateWith root rf (fun c => c.setIdx idx v)).root ∧
      (setitemView selfData (some rf) root idx v).ok
          = (updateWith root rf (fun c => c.setIdx idx v)).ok ∧
      (setitemView selfData (some rf) root idx v).events
          = .warned rf.attrname
              :: (updateWith root rf (fun c => c.setIdx idx v)).events ∧
      (setitemView selfData (some rf) root idx v).self = selfData := by
  refine ⟨?_, ?_, ?_⟩
  · intro d hd
    simp only [setitemView, hd]
  · intro hd
    simp only [setitemView, hd]
  · intro rf
    refine ⟨?_, rfl, rfl, rfl, rfl, rfl⟩
    show ((Event.warned rf.attrname)
        :: (updateWith root rf (fun c => c.setIdx idx v)).events).count
          (.warned rf.attrname) = 1
    rw [List.count_cons]
    rw [updateWith_no_warn root rf (fun c => c.setIdx idx v) rf.attrname]
    simp

theorem setitem_interception_witness :
    setitemView (Node.arr [1, 2, 3]) none ⟨[], false⟩ 1 9
      = ⟨Node.arr [1, 9, 3], ⟨[], false⟩, true, [.nativeSet], [⟨[], false⟩]⟩ :=
  (setitem_interception (Node.arr [1, 2, 3]) ⟨[], false⟩ 1 9).1
    (Node.arr [1, 9, 3]) (by rfl)

theorem list_set_self {α : Type} :
    ∀ (l : List α) (i : Nat) (a : α), l[i]? = some a → l.set i a = l := by
  intro l
  induction l with
  | nil => intro i a h; simp at h
  | cons x xs ih =>
    intro i a h
    cases i with
    | zero =>
      simp only [List.getElem?_cons_zero] at h
      rw [Option.some.inj h]
      rfl
    | succ j =>
      simp only [List.getElem?_cons_succ] at h
      simp only [List.set_cons_succ]
      rw [ih j a h]

/-- C1: an item-assignment on a view `V` of root `R` changes no value
observable through `R` before the commit step — every intermediate root state
preceding the `committed` event equals the original — and changes nothing
observable through `V` itself or any other view derived from `R`: the whole
list of view objects is untouched.  The copy always precedes the mutation:
the only possible traces are warn–copy (exception) and
warn–copy–mutate–commit, the mutation being applied inside the fresh copy. -/
theorem view_mutation_isolated (s : Sys) (i : Nat) (idx : Nat) (v : Int)
    (vo : ViewObj) (rf : ElementRef)
    (hv : s.views[i]? = some vo) (hva : vo.va = some rf) :
    (sysSetitem s i idx v).1.views = s.views ∧
    (sysSetitem s i idx v).2 = some (setitemView vo.data (some rf) s.root idx v) ∧
    ((setitemView vo.data (some rf) s.root idx v).events
        = [.warned rf.attrname, .copied] ∨
      (setitemView vo.data (some rf) s.root idx v).events
        = [.warned rf.attrname, .copied, .mutated, .committed]) ∧
    (setitemView vo.data (some rf) s.root idx v).roots.length
      = (setitemView vo.data (some rf) s.root idx v).events.length ∧
    (∀ j, j < (setitemView vo.data (some rf) s.root idx v).events.length →
      (setitemView vo.data (some rf) s.root idx v).events[j]? ≠ some .committed →
      (setitemView vo.data (some rf) s.root idx v).roots[j]? = some s.root) ∧
    (setitemView vo.data (some rf) s.root idx v).self = vo.data := by
  have hself : (setitemView vo.data (some rf) s.root idx v).self = vo.data := rfl
  have hviews : (sysSetitem s i idx v).1.views = s.views := by
    have hv2 : s.views[i]? = some ⟨vo.data, some rf⟩ := by
      rw [← hva]
      exact hv
    simp only [sysSetitem, hv]
    rw [hva, hself]
    exact list_set_self s.views i ⟨vo.data, some rf⟩ hv2
  have hres : (sysSetitem s i idx v).2
      = some (setitemView vo.data (some rf) s.root idx v) := by
    simp only [sysSetitem, hv, hva]
  refine ⟨hviews, hres, ?_, ?_, ?_, hself⟩ <;>
    rcases updateWith_char s.root rf (fun c => c.setIdx idx v) with
      ⟨hok, hroot, hev, hroots⟩ | ⟨hok, hev, hroots, hview, hex⟩
  · left
    show Event.warned rf.attrname
        :: (updateWith s.root rf (fun c => c.setIdx idx v)).events = _
    rw [hev]
  · right
    show Event.warned rf.attrname
        :: (updateWith s.root rf (fun c => c.setIdx idx v)).events = _
    rw [hev]
  · show (s.root :: (updateWith s.root rf (fun c => c.setIdx idx v)).roots).length
        = (Event.warned rf.attrname
            :: (updateWith s.root rf (fun c => c.setIdx idx v)).events).length
    rw [hev, hroots]
    rfl
  · show (s.root :: (updateWith s.root rf (fun c => c.setIdx idx v)).roots).length
        = (Event.warned rf.attrname
            :: (updateWith s.root rf (fun c => c.setIdx idx v)).events).length
    rw [hev, hroots]
    rfl
  · intro j hj hne
    have hev2 : (setitemView vo.data (some rf) s.root idx v).events
        = [.warned rf.attrname, .copied] := by
      show Event.warned rf.attrname
          :: (updateWith s.root rf (fun c => c.setIdx idx v)).events = _
      rw [hev]
    have hroots2 : (setitemView vo.data (some rf) s.root idx v).roots
        = [s.root, s.root] := by
      show s.root :: (updateWith s.root rf (fun c => c.setIdx idx v)).roots = _
      rw [hroots]
    rw [hev2] at hj
    rw [hroots2]
    match j, hj with
    | 0, _ => rfl
    | 1, _ => rfl
  · intro j hj hne
    have hev2 : (setitemView vo.data (some rf) s.root idx v).events
        = [.warned rf.attrname, .copied, .mutated, .committed] := by
      show Event.warned rf.attrname
          :: (updateWith s.root rf (fun c => c.setIdx idx v)).events = _
      rw [hev]
    have hroots2 : (setitemView vo.data (some rf) s.root idx v).roots
        = [s.root, s.root, s.root,
            (updateWith s.root rf (fun c => c.setIdx idx v)).root] := by
      show s.root :: (updateWith s.root rf (fun c => c.setIdx idx v)).roots = _
      rw [hroots]
    rw [hev2] at hj hne
    rw [hroots2]
    match j, hj with
    | 0, _ => rfl
    | 1, _ => rfl
    | 2, _ => rfl
    | 3, _ => exact absurd rfl hne

theorem view_mutation_isolated_witness :
    (sysSetitem
        ⟨⟨[("obsm", Node.dict [("x", Node.arr [1, 2])])], false⟩,
          [⟨Node.arr [1, 2], some ⟨"obsm", ["x"]⟩⟩,
            ⟨Node.arr [2], some ⟨"obsm", ["x"]⟩⟩]⟩
        0 0 5).1.views
      = [⟨Node.arr [1, 2], some ⟨"obsm", ["x"]⟩⟩,
          ⟨Node.arr [2], some ⟨"obsm", ["x"]⟩⟩] :=
  (view_mutation_isolated
      ⟨⟨[("obsm", Node.dict [("x", Node.arr [1, 2])])], false⟩,
        [⟨Node.arr [1, 2], some ⟨"obsm", ["x"]⟩⟩,
          ⟨Node.arr [2], some ⟨"obsm", ["x"]⟩⟩]⟩
      0 0 5 ⟨Node.arr [1, 2], some ⟨"obsm", ["x"]⟩⟩ ⟨"obsm", ["x"]⟩
      (by rfl) (by rfl)).1

/-- C6: every view variant's `copy` returns a plain, non-view instance of the
equivalent native container shape — never another view: a dense-array view
copies to a plain ndarray, a sparse-row view to a plain CSR matrix, a
sparse-column view to a plain CSC matrix, a table view to a plain table, and
a mapping view to a plain dict, each with the same data and no view
descriptor. -/
theorem view_copy_plain (d : List Int) (rows es : List (String × Int))
    (va : Option ElementRef) :
    ArrayView.copy d va = .ndarray d ∧
      (ArrayView.copy d va).isViewType = false ∧
      SparseCSRView.copy d va = .csrMatrix d ∧
      (SparseCSRView.copy d va).isViewType = false ∧
      SparseCSCView.copy d va = .cscMatrix d ∧
      (SparseCSCView.copy d va).isViewType = false ∧
      DataFrameView.copy rows va = .dataFrame rows ∧
      (DataFrameView.copy rows va).isViewType = false ∧
      DictView.copy es va = .pyDict es ∧
      (DictView.copy es va).isViewType = false :=
  ⟨rfl, rfl, rfl, rfl, rfl, rfl, rfl, rfl, rfl, rfl⟩

/-- C7: `drop` with `inplace=False` on a table view operates on a plain copy —
no interception or materialization events, root and view untouched, a new
plain table returned; `drop` with `inplace=True` routes through scoped
materialization exactly as an item assignment does: the same `_update` run
(copy root, re-enter the path, drop on the copy's sub-container, commit),
with the same possible event traces. -/
theorem dataFrameViewDrop_spec (rows : List (String × Int))
    (va : Option ElementRef) (root : AData) (lbl : String) (rf : ElementRef) :
    dataFrameViewDrop rows va root lbl false
        = ⟨dfDrop rows lbl, rows, root, (dfDrop rows lbl).isSome, []⟩ ∧
      dataFrameViewDrop rows (some rf) root lbl true
        = ⟨none, rows, (updateWith root rf (fun n => n.dropLbl lbl)).root,
            (updateWith root rf (fun n => n.dropLbl lbl)).ok,
            (updateWith root rf (fun n => n.dropLbl lbl)).events⟩ ∧
      ((updateWith root rf (fun n => n.dropLbl lbl)).events = [.copied] ∨
        (updateWith root rf (fun n => n.dropLbl lbl)).events
          = [.copied, .mutated, .committed]) := by
  refine ⟨rfl, rfl, ?_⟩
  rcases updateWith_char root rf (fun n => n.dropLbl lbl) with
    ⟨_, _, hev, _⟩ | ⟨_, hev, _, _, _⟩
  · exact Or.inl hev
  · exact Or.inr hev

/-- C8 counterexample to the claim as stated: deep-copying a dense-array view
with a non-null descriptor DOES duplicate the view wrapper.  `ArrayView` does
not inherit `_ViewMixin.__deepcopy__`; numpy's subclass-preserving deepcopy
re-runs `__array_finalize__`, so the result is another `ArrayView` carrying
the same descriptor and the view's own present data — not the plain non-view
sub-container at the descriptor's attribute name. -/
theorem view_deepcopy_counterexample :
    ArrayView.deepcopy ⟨[5, 6], some ⟨"obsm", ["x"]⟩⟩
        = (⟨[5, 6], some ⟨"obsm", ["x"]⟩⟩ : ArrView) ∧
      (ArrayView.deepcopy ⟨[5, 6], some ⟨"obsm", ["x"]⟩⟩).va
        = some ⟨"obsm", ["x"]⟩ ∧
      (ArrayView.deepcopy ⟨[5, 6], some ⟨"obsm", ["x"]⟩⟩).va ≠ none := by
  refine ⟨rfl, rfl, ?_⟩
  decide

/-- C8 (amended): deep-copying a view of the `_ViewMixin` family (sparse-row,
sparse-column, mapping, table) does not duplicate the view wrapper: with a
non-null descriptor it returns (a deep copy of) the original non-view
sub-container found at the descriptor's attribute name on the parent's
backing reference — independent of the view's own current data and of the
descriptor's keys.  A dense-array view does not inherit
`_ViewMixin.__deepcopy__`: its deepcopy resolves to numpy's
subclass-preserving deepcopy and yields another dense-array view carrying the
same descriptor. -/
theorem viewMixinDeepcopy_spec (d d' : Node) (rf : ElementRef)
    (keys' : List String) (parentRefAttrs : List (String × Node))
    (arrData : List Int) :
    viewMixinDeepcopy d (some rf) parentRefAttrs
        = List.lookup rf.attrname parentRefAttrs ∧
      viewMixinDeepcopy d (some rf) parentRefAttrs
        = viewMixinDeepcopy d' (some rf) parentRefAttrs ∧
      viewMixinDeepcopy d (some rf) parentRefAttrs
        = viewMixinDeepcopy d (some ⟨rf.attrname, keys'⟩) parentRefAttrs ∧
      ArrayView.deepcopy ⟨arrData, some rf⟩ = (⟨arrData, some rf⟩ : ArrView) ∧
      (ArrayView.deepcopy ⟨arrData, some rf⟩).va = some rf :=
  ⟨rfl, rfl, rfl, rfl, rfl⟩

/-- C9: calling the view-construction factory on an object of an unregistered
runtime type fails immediately with an error naming the offending type; the
pass-through immutable `ZappyArray` is returned unchanged; and the factory
fails exactly on unregistered types. -/
theorem as_view_unregistered (t : String) (va : ElementRef) (d : List Int)
    (obj : PyObj) :
    as_view (.unregistered t) va
        = .error ("No view type has been registered for "
            ++ PyObj.typename (.unregistered t)) ∧
      PyObj.typename (.unregistered t) = t ∧
      as_view (.zappyArray d) va = .ok (.zappyArray d) ∧
      ((as_view obj va).isOk = false ↔ ∃ t2, obj = .unregistered t2) := by
  refine ⟨rfl, rfl, rfl, ?_⟩
  cases obj <;> simp [as_view, Except.isOk, Except.toBool]

/-- The descriptor survives any chain of read operations unchanged. -/
theorem downstreamOps_va (v : ArrView) (ops : List (List Int → List Int)) :
    (downstreamOps v ops).va = v.va := by
  induction ops generalizing v with
  | nil => rfl
  | cons f fs ih =>
    show (downstreamOps (arrayReadOp v f).2 fs).va = v.va
    rw [ih]
    rfl

/-- C10: every ndarray finalized from a dense-array view inherits the view's
descriptor unchanged — so view-ness propagates through every downstream read
(slice, reshape, ufunc result) and through whole chains of them; an array
finalized from a source without a descriptor gets `none`; finalization from
`None` leaves the already-constructed value alone; a read never reassigns the
source's own descriptor; and construction sets the descriptor from its
argument. -/
theorem array_finalize_propagates (v : ArrView)
    (ops : List (List Int → List Int)) (f : List Int → List Int)
    (input_array : List Int) (view_args cur : Option ElementRef) :
    (downstreamOps v ops).va = v.va ∧
      (arrayReadOp v f).1 = v ∧
      (arrayReadOp v f).2.va = v.va ∧
      array_finalize_va cur .plainArray = none ∧
      array_finalize_va cur .noneObj = cur ∧
      (ArrayView.new input_array view_args).va = view_args :=
  ⟨downstreamOps_va v ops, rfl, rfl, rfl, rfl, rfl⟩
